import Mathlib

/-!
# Shallow embedding of the LC-3 disassembler

This file embeds the core of `lc3-disassembler.py`: the bit-field codec
(`parse_2scompl`, `decode_hex`, `decode_int`, `decode_reg`,
`decode_conditions`, `decode_pcoffset`), the instruction decoder
(`decode_instruction`), the raw-data fallback (`fill_instruction`) and the
disassembly driver loop (`disStep` / `disLoop` / `disassemble`), and proves
properties about them.

A 16-bit machine word is modelled as a `List Bool`, most significant bit
first, mirroring the Python strings of `'0'`/`'1'` characters the source
operates on.  Python string slicing `i[a:b]` is modelled by `pyslice`,
indexing `i[k]` by `pyget` (all call sites are in range because the length
is checked first).  Python exceptions and the `print(...); exit()` failure
branches are modelled by `Except DecodeError`; note that the source has
three branches that raise `TypeError` at run time because a required
positional argument is omitted (line 75 `Asm('RTI')`, and lines 83/89
`decode_pcoffset(i[10:16])`), and the embedding returns
`DecodeError.typeError` exactly on those branches.
-/

/-- A machine word / bit-field: bits most significant first
(the Python source works on strings of `'0'`/`'1'`). -/
abbrev Bits := List Bool

/-- Python `i[a:b]` slicing on a bit string. -/
def pyslice (l : Bits) (a b : Nat) : Bits := (l.take b).drop a

/-- Python `i[k]` indexing on a bit string.  Every call site in the source
indexes within bounds (the word length is checked to be 16 first), so the
default value is never consulted on the modelled inputs. -/
def pyget (l : Bits) (k : Nat) : Bool := l.getD k false

/-- Python `int(bits, 2)`: the unsigned value of a bit string, MSB first. -/
def bitsToNat (bits : Bits) : Nat :=
  bits.foldl (fun acc b => 2 * acc + (if b then 1 else 0)) 0

/-- Source `parse_2scompl(bits)`: two's-complement value of a bit string.
`bits[0] == '1'` is the sign test; `headI` returns `false` on `[]`, and the
source never passes an empty string. -/
def parse_2scompl (bits : Bits) : Int :=
  if bits.headI then -((2 : Int) ^ bits.length - (bitsToNat bits : Int))
  else (bitsToNat bits : Int)

/-- Source `decode_hex(x)`: `hex(int(x, 2))[1:]`, i.e. `x` followed by the
lowercase hex digits of the unsigned value (no leading zeros, `0 ↦ x0`). -/
def decode_hex (bits : Bits) : String :=
  "x" ++ String.mk (Nat.toDigits 16 (bitsToNat bits))

/-- Source `decode_int(bits)`: `'#{}'.format(parse_2scompl(bits))`. -/
def decode_int (bits : Bits) : String :=
  "#" ++ toString (parse_2scompl bits)

/-- Source `decode_reg(bits)`: `'R{}'.format(int(bits, 2))`. -/
def decode_reg (bits : Bits) : String :=
  "R" ++ toString (bitsToNat bits)

/-- Source `decode_conditions(bits)`: the subset of `n`, `z`, `p` whose bit
is set, in that order. -/
def decode_conditions (bits : Bits) : String :=
  (if pyget bits 0 then "n" else "") ++
  (if pyget bits 1 then "z" else "") ++
  (if pyget bits 2 then "p" else "")

/-- Source `decode_pcoffset(n, bits)`: `n + parse_2scompl(bits) + 1`. -/
def decode_pcoffset (n : Nat) (bits : Bits) : Int :=
  (n : Int) + parse_2scompl bits + 1

/-- Source class `Asm`: one assembly record.  `location`/`operands`/`label`
are `None`-able in the source; `operands` and `label` default to `None`. -/
structure Asm where
  location : Option Nat
  opcode : String
  operands : Option (List String) := none
  label : Option Int := none
deriving DecidableEq

/-- The ways `decode_instruction` fails to return a record.
`invalidLength` and `invalidOpcode` are the two `print(...); exit()`
branches (source lines 45-47 and 110-112).  `typeError` models the Python
`TypeError` raised when a required positional argument is missing:
source line 75 `Asm('RTI')` omits the `opcode` argument, and source lines
83/89 `decode_pcoffset(i[10:16])` omit the `bits` argument. -/
inductive DecodeError where
  | invalidLength (len : Nat) (loc : Nat)
  | invalidOpcode (loc : Nat)
  | typeError (msg : String)
deriving DecidableEq

/-- Whether an error is one of the source's own explicit decode-failure
branches (the spec's `StructuralDecodeError`), as opposed to an unhandled
Python `TypeError`. -/
def DecodeError.isStructural : DecodeError → Bool
  | .invalidLength _ _ => true
  | .invalidOpcode _ => true
  | .typeError _ => false

deriving instance DecidableEq for Except

/-- Source `decode_instruction(n, i)`, branch for branch.  The opcode
dispatch `match i[0:4]` is an equality chain on the 4-bit patterns in
source order. -/
def decode_instruction (n : Nat) (i : Bits) : Except DecodeError Asm :=
  if i.length ≠ 16 then
    .error (.invalidLength i.length n)
  else if pyslice i 0 4 = [false, false, false, true] then  -- '0001' ADD
    if pyget i 10 then
      .ok ⟨some n, "ADD", some [decode_reg (pyslice i 4 7), decode_reg (pyslice i 7 10),
        decode_int (pyslice i 11 16)], none⟩
    else
      .ok ⟨some n, "ADD", some [decode_reg (pyslice i 4 7), decode_reg (pyslice i 7 10),
        decode_reg (pyslice i 13 16)], none⟩
  else if pyslice i 0 4 = [false, true, false, true] then  -- '0101' AND
    if pyget i 10 then
      .ok ⟨some n, "AND", some [decode_reg (pyslice i 4 7), decode_reg (pyslice i 7 10),
        decode_int (pyslice i 11 16)], none⟩
    else
      .ok ⟨some n, "AND", some [decode_reg (pyslice i 4 7), decode_reg (pyslice i 7 10),
        decode_reg (pyslice i 13 16)], none⟩
  else if pyslice i 0 4 = [true, false, false, true] then  -- '1001' NOT
    .ok ⟨some n, "NOT", some [decode_reg (pyslice i 4 7), decode_reg (pyslice i 7 10)], none⟩
  else if pyslice i 0 4 = [false, false, false, false] then  -- '0000' BR
    .ok ⟨some n, "BR" ++ decode_conditions (pyslice i 4 7), none,
      some (decode_pcoffset n (pyslice i 7 16))⟩
  else if pyslice i 0 4 = [true, true, false, false] then  -- '1100' RET / JMP
    let reg := decode_reg (pyslice i 7 10)
    if reg = "R7" then
      .ok ⟨some n, "RET", none, none⟩
    else
      .ok ⟨some n, "JMP", some [reg], none⟩
  else if pyslice i 0 4 = [false, true, false, false] then  -- '0100' JSR / JSRR
    if pyget i 4 then
      .ok ⟨some n, "JSR", none, some (decode_pcoffset n (pyslice i 5 16))⟩
    else
      .ok ⟨some n, "JSRR", some [decode_reg (pyslice i 7 10)], none⟩
  else if pyslice i 0 4 = [true, false, false, false] then  -- '1000' RTI
    -- Source line 75: `return Asm('RTI')` omits the required `opcode`
    -- argument, so Python raises TypeError instead of building a record.
    .error (.typeError "Asm() missing 1 required positional argument: opcode")
  else if pyslice i 0 4 = [true, true, true, false] then  -- '1110' LEA
    .ok ⟨some n, "LEA", some [decode_reg (pyslice i 4 7)],
      some (decode_pcoffset n (pyslice i 7 16))⟩
  else if pyslice i 0 4 = [false, false, true, false] then  -- '0010' LD
    .ok ⟨some n, "LD", some [decode_reg (pyslice i 4 7)],
      some (decode_pcoffset n (pyslice i 7 16))⟩
  else if pyslice i 0 4 = [true, false, true, false] then  -- '1010' LDI
    .ok ⟨some n, "LDI", some [decode_reg (pyslice i 4 7)],
      some (decode_pcoffset n (pyslice i 7 16))⟩
  else if pyslice i 0 4 = [false, true, true, false] then  -- '0110' LDR
    -- Source line 83: `decode_pcoffset(i[10:16])` omits the required
    -- `bits` argument, so Python raises TypeError for every LDR word.
    .error (.typeError "decode_pcoffset() missing 1 required positional argument: bits")
  else if pyslice i 0 4 = [false, false, true, true] then  -- '0011' ST
    .ok ⟨some n, "ST", some [decode_reg (pyslice i 4 7)],
      some (decode_pcoffset n (pyslice i 7 16))⟩
  else if pyslice i 0 4 = [true, false, true, true] then  -- '1011' STI
    .ok ⟨some n, "STI", some [decode_reg (pyslice i 4 7)],
      some (decode_pcoffset n (pyslice i 7 16))⟩
  else if pyslice i 0 4 = [false, true, true, true] then  -- '0111' STR
    -- Source line 89: same missing-argument TypeError as LDR.
    .error (.typeError "decode_pcoffset() missing 1 required positional argument: bits")
  else if pyslice i 0 4 = [true, true, true, true] then  -- '1111' TRAP
    let trapvec := decode_hex (pyslice i 8 16)
    let shorthand : Option String :=
      if trapvec = "x20" then some "GETC"
      else if trapvec = "x21" then some "OUT"
      else if trapvec = "x22" then some "PUTS"
      else if trapvec = "x23" then some "IN"
      else if trapvec = "x24" then some "PUTSP"
      else if trapvec = "x25" then some "HALT"
      else none
    match shorthand with
    | some s => .ok ⟨some n, s, none, none⟩
    | none => .ok ⟨some n, "TRAP", some [trapvec], none⟩
  else
    .error (.invalidOpcode n)

/-- Source `fill_instruction(n, i)`. -/
def fill_instruction (n : Nat) (i : Bits) : Asm :=
  ⟨some n, ".FILL", some [decode_hex i], none⟩

/-- Python truthiness of `asm.label` (`if asm.label:`): `None` and `0` are
falsy, every other integer is truthy. -/
def labelTruthy : Option Int → Bool
  | none => false
  | some l => l != 0

/-- Python `labels.add(l)` with `labels` modelled as a duplicate-free list:
a no-op when the element is present.  Only the membership view and the
sorted view of `labels` are ever consumed, so the list model is faithful
to the Python `set`. -/
def addLabel (labels : List Int) (l : Int) : List Int :=
  if l ∈ labels then labels else labels ++ [l]

/-- The mutable state of the `for instr in instructions` loop in
`disassemble`: the accumulated lines, the set of collected label targets,
the running address `n`, and the `after_halt` flag. -/
structure LoopState where
  lines : List Asm
  labels : List Int
  n : Nat
  after_halt : Bool
deriving DecidableEq

/-- One iteration of the `disassemble` loop body (source lines 124-134). -/
def disStep (auto_fill : Bool) (s : LoopState) (instr : Bits) :
    Except DecodeError LoopState :=
  if !s.after_halt then
    match decode_instruction s.n instr with
    | .error e => .error e
    | .ok asm =>
      let labels := if labelTruthy asm.label then addLabel s.labels (asm.label.getD 0)
        else s.labels
      -- `if asm.opcode == 'HALT' and auto_fill: after_halt = True`; the
      -- flag is `false` on entry to this branch, so the new value is the
      -- conjunction.
      .ok ⟨s.lines ++ [asm], labels, s.n + 1, asm.opcode == "HALT" && auto_fill⟩
  else
    .ok ⟨s.lines ++ [fill_instruction s.n instr], s.labels, s.n + 1, s.after_halt⟩

/-- The `for instr in instructions` loop of `disassemble`. -/
def disLoop (auto_fill : Bool) : LoopState → List Bits → Except DecodeError LoopState
  | s, [] => .ok s
  | s, instr :: rest =>
    match disStep auto_fill s instr with
    | .error e => .error e
    | .ok s' => disLoop auto_fill s' rest

/-- The loop state on entry: `asm_lines = [Asm(None, '.ORIG', ['x3000'])]`,
`labels = set()`, `n = 0`, `after_halt = False`. -/
def initState : LoopState :=
  ⟨[⟨none, ".ORIG", some ["x3000"], none⟩], [], 0, false⟩

/-- Running the whole decode loop of `disassemble` from the initial state. -/
def disRun (auto_fill : Bool) (instructions : List Bits) :
    Except DecodeError LoopState :=
  disLoop auto_fill initState instructions

/-- The `label_names` assignment loop (source lines 138-142): walk a list
of addresses with a counter, naming them `LABEL0`, `LABEL1`, …. -/
def assignNames (k : Nat) : List Int → List (Int × String)
  | [] => []
  | l :: ls => (l, "LABEL" ++ toString k) :: assignNames (k + 1) ls

/-- `label_names` built from the collected label set: the Python
`sorted(list(labels))` is the ascending sort of the collected elements. -/
def label_names (labels : List Int) : List (Int × String) :=
  assignNames 0 (List.insertionSort (· ≤ ·) labels)

/-- The result of `disassemble` consumed by the rendering loop: the full
line list (with the trailing `.END`), the collected label set, and the
`label_names` table. -/
structure Disassembly where
  lines : List Asm
  labels : List Int
  names : List (Int × String)
deriving DecidableEq

/-- Source `disassemble(instructions, auto_fill)` up to the point where the
rendering loop starts: the decode loop, the trailing `.END` record, and the
`label_names` table. -/
def disassemble (instructions : List Bits) (auto_fill : Bool) :
    Except DecodeError Disassembly :=
  match disRun auto_fill instructions with
  | .error e => .error e
  | .ok s => .ok ⟨s.lines ++ [⟨none, ".END", none, none⟩], s.labels, label_names s.labels⟩

/-- The records the auto-fill path emits for a word list starting at a
given address: `fill_instruction` applied at consecutive addresses. -/
def fillsFrom (n : Nat) : List Bits → List Asm
  | [] => []
  | w :: ws => fill_instruction n w :: fillsFrom (n + 1) ws

/-- Two's-complement encoding of an integer in `len` bits, following the
spec's round-trip property ("encoding an integer `v` in `len` bits via
two's-complement"): the `len`-bit big-endian representation of
`v mod 2^len`. -/
def natToBits : Nat → Nat → Bits
  | 0, _ => []
  | len + 1, m => natToBits len (m / 2) ++ [m % 2 == 1]

/-- Modelled from the spec: the encoding direction of the `signedValue`
round-trip property (§8); the source only contains the decoding direction
`parse_2scompl`. -/
def encode_2scompl (len : Nat) (v : Int) : Bits :=
  natToBits len (v % (2 : Int) ^ len).toNat

/-- The fifteen 4-bit opcode patterns with a dedicated `match` case in
`decode_instruction`, in source order; every other pattern reaches the
`case _` failure branch. -/
def opcodePatterns : List Bits :=
  [[false, false, false, true], [false, true, false, true], [true, false, false, true],
   [false, false, false, false], [true, true, false, false], [false, true, false, false],
   [true, false, false, false], [true, true, true, false], [false, false, true, false],
   [true, false, true, false], [false, true, true, false], [false, false, true, true],
   [true, false, true, true], [false, true, true, true], [true, true, true, true]]

/-- Conversion of the input collaborator's 16-character `'0'`/`'1'` text
form into a bit list, used to write concrete words compactly. -/
def bitsOfString (s : String) : Bits := s.data.map (· == '1')

/-! ## Bit-arithmetic lemmas -/

theorem bitsToNat_foldl_acc (l : Bits) (a : Nat) :
    l.foldl (fun acc b => 2 * acc + (if b then 1 else 0)) a = a * 2 ^ l.length + bitsToNat l := by
  induction l generalizing a with
  | nil => simp [bitsToNat]
  | cons b l ih =>
    simp only [List.foldl_cons, List.length_cons]
    rw [ih]
    have hcons : bitsToNat (b :: l) =
        (2 * 0 + (if b then 1 else 0)) * 2 ^ l.length + bitsToNat l := by
      rw [bitsToNat]
      simp only [List.foldl_cons]
      exact ih _
    rw [hcons]
    ring

theorem bitsToNat_cons (b : Bool) (l : Bits) :
    bitsToNat (b :: l) = (if b then 1 else 0) * 2 ^ l.length + bitsToNat l := by
  have h := bitsToNat_foldl_acc l (2 * 0 + (if b then 1 else 0))
  simpa [bitsToNat] using h

theorem bitsToNat_lt (l : Bits) : bitsToNat l < 2 ^ l.length := by
  induction l with
  | nil => simp [bitsToNat]
  | cons b l ih =>
    rw [bitsToNat_cons, List.length_cons, pow_succ]
    have hp : 0 < 2 ^ l.length := Nat.pos_pow_of_pos _ (by norm_num)
    cases b <;> simp <;> linarith

theorem bitsToNat_append_bit (l : Bits) (b : Bool) :
    bitsToNat (l ++ [b]) = 2 * bitsToNat l + (if b then 1 else 0) := by
  simp [bitsToNat, List.foldl_append]

theorem natToBits_length (len m : Nat) : (natToBits len m).length = len := by
  induction len generalizing m with
  | zero => rfl
  | succ len ih => simp [natToBits, ih]

theorem bitsToNat_natToBits (len m : Nat) : bitsToNat (natToBits len m) = m % 2 ^ len := by
  induction len generalizing m with
  | zero => simp [natToBits, bitsToNat, Nat.mod_one]
  | succ len ih =>
    rw [natToBits, bitsToNat_append_bit, ih]
    have hbit : (if (m % 2 == 1) then 1 else 0) = m % 2 := by
      rcases Nat.mod_two_eq_zero_or_one m with h | h <;> simp [h]
    have hmm := Nat.mod_mul (a := 2) (b := 2 ^ len) (x := m)
    rw [hbit, pow_succ, Nat.mul_comm ((2 : Nat) ^ len) 2]
    linarith

theorem headI_cons_msb (b : Bool) (l : Bits) :
    (b :: l).headI = true ↔ 2 ^ l.length ≤ bitsToNat (b :: l) := by
  rw [bitsToNat_cons]
  cases b <;> simp
  exact bitsToNat_lt l

theorem parse_natToBits (L m : Nat) (hm : m < 2 ^ (L + 1)) :
    parse_2scompl (natToBits (L + 1) m) =
      if 2 ^ L ≤ m then (m : Int) - 2 ^ (L + 1) else (m : Int) := by
  obtain ⟨b, l, hbl⟩ : ∃ b l, natToBits (L + 1) m = b :: l := by
    cases h : natToBits (L + 1) m with
    | nil =>
      have hlen := natToBits_length (L + 1) m
      rw [h] at hlen
      simp at hlen
    | cons b l => exact ⟨b, l, rfl⟩
  have hll : l.length = L := by
    have hlen := natToBits_length (L + 1) m
    rw [hbl] at hlen
    simpa using hlen
  have hval : bitsToNat (b :: l) = m := by
    have h := bitsToNat_natToBits (L + 1) m
    rw [hbl] at h
    rwa [Nat.mod_eq_of_lt hm] at h
  have hmsb := headI_cons_msb b l
  rw [hval, hll] at hmsb
  rw [hbl]
  simp only [parse_2scompl, List.length_cons, hval, hll]
  by_cases hc : 2 ^ L ≤ m
  · rw [if_pos (hmsb.mpr hc), if_pos hc]
    ring
  · have hbfalse : (b :: l).headI = false := by
      cases hhd : (b :: l).headI
      · rfl
      · exact absurd (hmsb.mp hhd) hc
    rw [hbfalse]
    simp [hc]

/-- C9: round-trip of two's-complement encode then `parse_2scompl`. -/
theorem signedValue_roundtrip (len : Nat) (v : Int) (hlen : 1 ≤ len)
    (hlo : -((2 : Int) ^ (len - 1)) ≤ v) (hhi : v ≤ (2 : Int) ^ (len - 1) - 1) :
    parse_2scompl (encode_2scompl len v) = v := by
  obtain ⟨L, rfl⟩ : ∃ L, len = L + 1 := ⟨len - 1, by omega⟩
  simp only [Nat.add_sub_cancel] at hlo hhi
  have hpowpos : (0 : Int) < 2 ^ (L + 1) := by positivity
  have hpowL : (0 : Int) < 2 ^ L := by positivity
  have hsplit : (2 : Int) ^ (L + 1) = 2 ^ L * 2 := by rw [pow_succ]
  have hnn : 0 ≤ v % 2 ^ (L + 1) := Int.emod_nonneg v (ne_of_gt hpowpos)
  have hlt : v % 2 ^ (L + 1) < 2 ^ (L + 1) := Int.emod_lt_of_pos v hpowpos
  have hcast : (((v % (2 : Int) ^ (L + 1)).toNat : Nat) : Int) = v % 2 ^ (L + 1) :=
    Int.toNat_of_nonneg hnn
  have hNlt : (v % (2 : Int) ^ (L + 1)).toNat < 2 ^ (L + 1) := by
    have h2 : (((v % (2 : Int) ^ (L + 1)).toNat : Nat) : Int) < ((2 ^ (L + 1) : Nat) : Int) := by
      rw [hcast]
      push_cast
      exact hlt
    exact_mod_cast h2
  rw [encode_2scompl, parse_natToBits L _ hNlt]
  rcases le_or_lt 0 v with hv | hv
  · -- non-negative: v % 2^(L+1) = v, below the sign bit
    have hvlt : v < 2 ^ (L + 1) := by linarith
    have hmod : v % (2 : Int) ^ (L + 1) = v := Int.emod_eq_of_lt hv hvlt
    have hNv : (((v % (2 : Int) ^ (L + 1)).toNat : Nat) : Int) = v := by rw [hcast, hmod]
    rw [if_neg]
    · exact hNv
    · intro hcon
      have : ((2 ^ L : Nat) : Int) ≤ (((v % (2 : Int) ^ (L + 1)).toNat : Nat) : Int) := by
        exact_mod_cast hcon
      rw [hNv] at this
      push_cast at this
      linarith
  · -- negative: v % 2^(L+1) = v + 2^(L+1), at or above the sign bit
    have hmod : v % (2 : Int) ^ (L + 1) = v + 2 ^ (L + 1) := by
      have h1 : (v + 2 ^ (L + 1) * 1) % (2 : Int) ^ (L + 1) = v % 2 ^ (L + 1) :=
        Int.add_mul_emod_self_left v (2 ^ (L + 1)) 1
      have h2 : (v + (2 : Int) ^ (L + 1)) % 2 ^ (L + 1) = v + 2 ^ (L + 1) :=
        Int.emod_eq_of_lt (by linarith) (by linarith)
      rw [mul_one] at h1
      rw [← h1, h2]
    have hNv : (((v % (2 : Int) ^ (L + 1)).toNat : Nat) : Int) = v + 2 ^ (L + 1) := by
      rw [hcast, hmod]
    rw [if_pos]
    · rw [hNv]
      ring
    · have h3 : ((2 ^ L : Nat) : Int) ≤ (((v % (2 : Int) ^ (L + 1)).toNat : Nat) : Int) := by
        rw [hNv]
        push_cast
        linarith
      exact_mod_cast h3

/-- C9 witness: the 4-bit round-trip at `v = -3`. -/
theorem signedValue_roundtrip_witness :
    (1 ≤ 4 ∧ -((2 : Int) ^ (4 - 1)) ≤ -3 ∧ (-3 : Int) ≤ (2 : Int) ^ (4 - 1) - 1) ∧
      parse_2scompl (encode_2scompl 4 (-3)) = -3 :=
  ⟨⟨by decide, by decide, by decide⟩,
    signedValue_roundtrip 4 (-3) (by decide) (by decide) (by decide)⟩

/-! ## Decoder theorems -/

/-- C8: a BR word decodes with branch target
`decode_pcoffset n offsetBits = n + parse_2scompl offsetBits + 1`. -/
theorem br_decode (n : Nat) (b4 b5 b6 : Bool) (bits : Bits) (hb : bits.length = 9) :
    decode_instruction n (false :: false :: false :: false :: b4 :: b5 :: b6 :: bits) =
      .ok ⟨some n, "BR" ++ decode_conditions [b4, b5, b6], none,
        some (decode_pcoffset n bits)⟩ ∧
    decode_pcoffset n bits = (n : Int) + parse_2scompl bits + 1 := by
  rcases bits with _ | ⟨o0, bits⟩; · simp at hb
  rcases bits with _ | ⟨o1, bits⟩; · simp at hb
  rcases bits with _ | ⟨o2, bits⟩; · simp at hb
  rcases bits with _ | ⟨o3, bits⟩; · simp at hb
  rcases bits with _ | ⟨o4, bits⟩; · simp at hb
  rcases bits with _ | ⟨o5, bits⟩; · simp at hb
  rcases bits with _ | ⟨o6, bits⟩; · simp at hb
  rcases bits with _ | ⟨o7, bits⟩; · simp at hb
  rcases bits with _ | ⟨o8, bits⟩; · simp at hb
  rcases bits with _ | ⟨o9, bits⟩
  · exact ⟨rfl, rfl⟩
  · simp at hb

/-- C8 witness: BR at address 5 with 9-bit offset `-3` resolves to 3. -/
theorem br_decode_witness :
    decode_instruction 5
        (false :: false :: false :: false :: false :: false :: false :: bitsOfString "111111101") =
      .ok ⟨some 5, "BR" ++ decode_conditions [false, false, false], none,
        some (decode_pcoffset 5 (bitsOfString "111111101"))⟩ ∧
    decode_pcoffset 5 (bitsOfString "111111101") = 3 :=
  ⟨(br_decode 5 false false false (bitsOfString "111111101") (by decide)).1, by decide⟩

/-- C1: every LDR (`0110`) or STR (`0111`) word makes `decode_instruction`
fail with the `TypeError` of the one-argument `decode_pcoffset(i[10:16])`
call, instead of returning a record. -/
theorem ldr_str_decode_typeError (n : Nat) (i : Bits) (h16 : i.length = 16)
    (hop : pyslice i 0 4 = [false, true, true, false] ∨
      pyslice i 0 4 = [false, true, true, true]) :
    decode_instruction n i =
      .error (.typeError "decode_pcoffset() missing 1 required positional argument: bits") := by
  rcases hop with h | h <;> simp [decode_instruction, h16, h]

/-- C1 witness: the LDR word `0110000000000000` at address 3. -/
theorem ldr_str_decode_typeError_witness :
    (bitsOfString "0110000000000000").length = 16 ∧
    decode_instruction 3 (bitsOfString "0110000000000000") =
      .error (.typeError "decode_pcoffset() missing 1 required positional argument: bits") :=
  ⟨by decide, ldr_str_decode_typeError 3 _ (by decide) (Or.inl (by decide))⟩

/-- C2: evaluating the decoder at a defined opcode (`0111`, STR) shows the
claimed "never fails" property is broken by the source's missing-argument
call. -/
theorem str_opcode_decode_fails :
    decode_instruction 0 (bitsOfString "0111000000000000") =
      .error (.typeError "decode_pcoffset() missing 1 required positional argument: bits") := by
  decide

/-- C3: every word with opcode bits `1000` makes `decode_instruction` fail
with the `TypeError` of the `Asm('RTI')` call (missing `opcode` argument),
instead of returning an RTI record. -/
theorem rti_decode_typeError (n : Nat) (i : Bits) (h16 : i.length = 16)
    (hop : pyslice i 0 4 = [true, false, false, false]) :
    decode_instruction n i =
      .error (.typeError "Asm() missing 1 required positional argument: opcode") := by
  simp [decode_instruction, h16, hop]

/-- C3 witness: the word `1000000000000000` at address 0. -/
theorem rti_decode_typeError_witness :
    (bitsOfString "1000000000000000").length = 16 ∧
    decode_instruction 0 (bitsOfString "1000000000000000") =
      .error (.typeError "Asm() missing 1 required positional argument: opcode") :=
  ⟨by decide, rti_decode_typeError 0 _ (by decide) (by decide)⟩

/-- C4 counterexample: on the reserved opcode `1000` the decoder does fail,
but with a non-structural error (a Python `TypeError`), not with the
structural `invalid opcode`/`invalid length` failure the claim names. -/
theorem reserved_opcode_error_not_structural :
    ∃ e, decode_instruction 0 (bitsOfString "1000000000000000") = .error e ∧
      e.isStructural = false :=
  ⟨.typeError "Asm() missing 1 required positional argument: opcode", by decide, by decide⟩

/-- C4 (amended): a 16-bit word whose opcode pattern has no `match` case
fails with the structural `invalid opcode` error; a word with opcode
`1000` also fails to return a record, but with a non-structural
`TypeError`. -/
theorem undefined_pattern_structural_error (n : Nat) (i : Bits) (h16 : i.length = 16) :
    (pyslice i 0 4 ∉ opcodePatterns → decode_instruction n i = .error (.invalidOpcode n)) ∧
    (pyslice i 0 4 = [true, false, false, false] →
      ∃ e, decode_instruction n i = .error e ∧ e.isStructural = false) := by
  constructor
  · intro hop
    simp only [opcodePatterns, List.mem_cons, List.mem_singleton] at hop
    push_neg at hop
    obtain ⟨h1, h2, h3, h4, h5, h6, h7, h8, h9, h10, h11, h12, h13, h14, h15⟩ := hop
    simp [decode_instruction, h16, h1, h2, h3, h4, h5, h6, h7, h8, h9, h10, h11, h12, h13, h14,
      h15]
  · intro hop
    refine ⟨.typeError "Asm() missing 1 required positional argument: opcode", ?_, rfl⟩
    simp [decode_instruction, h16, hop]

/-- C4 witness: the undefined pattern `1101` hits the structural failure
branch. -/
theorem undefined_pattern_structural_error_witness :
    pyslice (bitsOfString "1101000000000000") 0 4 ∉ opcodePatterns ∧
    decode_instruction 0 (bitsOfString "1101000000000000") = .error (.invalidOpcode 0) :=
  ⟨by decide, (undefined_pattern_structural_error 0 _ (by decide)).1 (by decide)⟩

/-! ## Driver-loop lemmas -/

theorem disLoop_append (af : Bool) (ws1 ws2 : List Bits) (s : LoopState) :
    disLoop af s (ws1 ++ ws2) =
      match disLoop af s ws1 with
      | .error e => .error e
      | .ok s1 => disLoop af s1 ws2 := by
  induction ws1 generalizing s with
  | nil => rfl
  | cons w ws ih =>
    simp only [List.cons_append, disLoop]
    cases disStep af s w with
    | error e => rfl
    | ok s' => exact ih s'

theorem fillsFrom_length (n : Nat) (ws : List Bits) : (fillsFrom n ws).length = ws.length := by
  induction ws generalizing n with
  | nil => rfl
  | cons w ws ih => simp [fillsFrom, ih]

theorem fillsFrom_get (ws : List Bits) (n j : Nat) (hj : j < ws.length) :
    ∃ hj2 : j < (fillsFrom n ws).length,
      (fillsFrom n ws).get ⟨j, hj2⟩ = fill_instruction (n + j) (ws.get ⟨j, hj⟩) := by
  induction ws generalizing n j with
  | nil => simp at hj
  | cons w ws ih =>
    cases j with
    | zero => exact ⟨by simp [fillsFrom], by simp [fillsFrom]⟩
    | succ j =>
      have hj3 : j < ws.length := by simpa using hj
      obtain ⟨hj2, hget⟩ := ih (n + 1) j hj3
      refine ⟨by simpa [fillsFrom] using hj2, ?_⟩
      simpa [fillsFrom, Nat.add_assoc, Nat.add_comm 1 j] using hget

theorem disLoop_past_halt (af : Bool) (ws : List Bits) (s : LoopState)
    (h : s.after_halt = true) :
    disLoop af s ws = .ok ⟨s.lines ++ fillsFrom s.n ws, s.labels, s.n + ws.length, true⟩ := by
  induction ws generalizing s with
  | nil =>
    cases s with
    | mk lines labels n ah =>
      simp only [LoopState.after_halt] at h
      subst h
      simp [disLoop, fillsFrom]
  | cons w ws ih =>
    simp only [disLoop, disStep, h, Bool.not_true, Bool.false_eq_true, if_false]
    rw [ih ⟨s.lines ++ [fill_instruction s.n w], s.labels, s.n + 1, true⟩ rfl]
    simp only [fillsFrom, List.append_assoc, List.singleton_append, List.length_cons,
      Except.ok.injEq, LoopState.mk.injEq, and_true, true_and]
    omega

theorem mem_addLabel_of_mem (labels : List Int) (x a : Int) (h : a ∈ labels) :
    a ∈ addLabel labels x := by
  unfold addLabel
  split
  · exact h
  · exact List.mem_append_left _ h

theorem mem_addLabel_self (labels : List Int) (x : Int) : x ∈ addLabel labels x := by
  unfold addLabel
  split
  · assumption
  · exact List.mem_append_right _ (List.mem_singleton.mpr rfl)

theorem addLabel_nodup (labels : List Int) (x : Int) (h : labels.Nodup) :
    (addLabel labels x).Nodup := by
  unfold addLabel
  by_cases hx : x ∈ labels
  · rw [if_pos hx]
    exact h
  · rw [if_neg hx]
    refine h.append (List.nodup_singleton x) ?_
    intro a ha hax
    rw [List.mem_singleton] at hax
    subst hax
    exact hx ha

theorem disStep_label_invariant (af : Bool) (s s1 : LoopState) (w : Bits)
    (hstep : disStep af s w = .ok s1)
    (hinv : ∀ asm ∈ s.lines, ∀ l : Int, asm.label = some l → l ≠ 0 → l ∈ s.labels) :
    ∀ asm ∈ s1.lines, ∀ l : Int, asm.label = some l → l ≠ 0 → l ∈ s1.labels := by
  unfold disStep at hstep
  cases hb : s.after_halt with
  | true =>
    rw [hb] at hstep
    simp only [Bool.not_true, Bool.false_eq_true, if_false, Except.ok.injEq] at hstep
    subst hstep
    intro a ha l hl hnz
    rcases List.mem_append.mp ha with hmem | hmem
    · exact hinv a hmem l hl hnz
    · have ha2 : a = fill_instruction s.n w := by simpa using hmem
      rw [ha2] at hl
      simp [fill_instruction] at hl
  | false =>
    rw [hb] at hstep
    simp only [Bool.not_false, if_true] at hstep
    cases hdec : decode_instruction s.n w with
    | error e => rw [hdec] at hstep; simp at hstep
    | ok asm =>
      rw [hdec] at hstep
      simp only [Except.ok.injEq] at hstep
      subst hstep
      intro a ha l hl hnz
      dsimp only at ha ⊢
      rcases List.mem_append.mp ha with hmem | hmem
      · by_cases hT : labelTruthy asm.label = true
        · rw [if_pos hT]
          exact mem_addLabel_of_mem _ _ _ (hinv a hmem l hl hnz)
        · rw [if_neg hT]
          exact hinv a hmem l hl hnz
      · have ha2 : a = asm := by simpa using hmem
        subst ha2
        have ht : labelTruthy a.label = true := by
          rw [hl]
          simp [labelTruthy, hnz]
        rw [if_pos ht]
        have hgd : a.label.getD 0 = l := by rw [hl]; rfl
        rw [hgd]
        exact mem_addLabel_self _ _

theorem disLoop_label_invariant (af : Bool) (ws : List Bits) (s s2 : LoopState)
    (hrun : disLoop af s ws = .ok s2)
    (hinv : ∀ asm ∈ s.lines, ∀ l : Int, asm.label = some l → l ≠ 0 → l ∈ s.labels) :
    ∀ asm ∈ s2.lines, ∀ l : Int, asm.label = some l → l ≠ 0 → l ∈ s2.labels := by
  induction ws generalizing s with
  | nil =>
    simp only [disLoop, Except.ok.injEq] at hrun
    subst hrun
    exact hinv
  | cons w ws ih =>
    simp only [disLoop] at hrun
    cases hstep : disStep af s w with
    | error e =>
      simp only [hstep] at hrun
      exact Except.noConfusion hrun
    | ok s1 =>
      simp only [hstep] at hrun
      exact ih s1 hrun (disStep_label_invariant af s s1 w hstep hinv)

theorem disStep_labels_nodup (af : Bool) (s s1 : LoopState) (w : Bits)
    (hstep : disStep af s w = .ok s1) (h : s.labels.Nodup) : s1.labels.Nodup := by
  unfold disStep at hstep
  cases hb : s.after_halt with
  | true =>
    rw [hb] at hstep
    simp only [Bool.not_true, Bool.false_eq_true, if_false, Except.ok.injEq] at hstep
    subst hstep
    exact h
  | false =>
    rw [hb] at hstep
    simp only [Bool.not_false, if_true] at hstep
    cases hdec : decode_instruction s.n w with
    | error e => rw [hdec] at hstep; simp at hstep
    | ok asm =>
      rw [hdec] at hstep
      simp only [Except.ok.injEq] at hstep
      subst hstep
      dsimp only
      by_cases hT : labelTruthy asm.label = true
      · rw [if_pos hT]
        exact addLabel_nodup _ _ h
      · rw [if_neg hT]
        exact h

theorem disLoop_labels_nodup (af : Bool) (ws : List Bits) (s s2 : LoopState)
    (hrun : disLoop af s ws = .ok s2) (h : s.labels.Nodup) : s2.labels.Nodup := by
  induction ws generalizing s with
  | nil =>
    simp only [disLoop, Except.ok.injEq] at hrun
    subst hrun
    exact h
  | cons w ws ih =>
    simp only [disLoop] at hrun
    cases hstep : disStep af s w with
    | error e =>
      simp only [hstep] at hrun
      exact Except.noConfusion hrun
    | ok s1 =>
      simp only [hstep] at hrun
      exact ih s1 hrun (disStep_labels_nodup af s s1 w hstep h)

theorem disassemble_ok_parts (ws : List Bits) (af : Bool) (d : Disassembly)
    (h : disassemble ws af = .ok d) :
    ∃ s, disRun af ws = .ok s ∧
      d.lines = s.lines ++ [⟨none, ".END", none, none⟩] ∧
      d.labels = s.labels ∧ d.names = label_names s.labels := by
  unfold disassemble at h
  cases hrun : disRun af ws with
  | error e => rw [hrun] at h; simp at h
  | ok s =>
    rw [hrun] at h
    simp only [Except.ok.injEq] at h
    subst h
    exact ⟨s, rfl, rfl, rfl, rfl⟩

theorem assignNames_lookup_of_mem (xs : List Int) (a : Int) :
    ∀ k : Nat, a ∈ xs →
      ∃ i, (assignNames k xs).lookup a = some ("LABEL" ++ toString i) ∧ k ≤ i := by
  induction xs with
  | nil => intro k h; simp at h
  | cons x xs ih =>
    intro k h
    by_cases hax : a = x
    · subst hax
      refine ⟨k, ?_, le_refl k⟩
      simp [assignNames, List.lookup]
    · have hmem : a ∈ xs := by
        rcases List.mem_cons.mp h with h1 | h1
        · exact absurd h1 hax
        · exact h1
      obtain ⟨i, hlook, hki⟩ := ih (k + 1) hmem
      have hbeq : (a == x) = false := beq_eq_false_iff_ne.mpr hax
      refine ⟨i, ?_, by omega⟩
      simpa [assignNames, List.lookup, hbeq] using hlook

theorem assignNames_lookup_mono : ∀ xs : List Int, xs.Sorted (· < ·) → ∀ a1 a2 : Int,
    a1 ∈ xs → a2 ∈ xs → a1 < a2 → ∀ k : Nat,
      ∃ i1 i2 : Nat, (assignNames k xs).lookup a1 = some ("LABEL" ++ toString i1) ∧
        (assignNames k xs).lookup a2 = some ("LABEL" ++ toString i2) ∧ i1 < i2 := by
  intro xs
  induction xs with
  | nil => intro _ a1 a2 h1; simp at h1
  | cons x xs ih =>
    intro hs a1 a2 h1 h2 hlt k
    obtain ⟨hall, hs2⟩ := List.sorted_cons.mp hs
    by_cases h1x : a1 = x
    · subst h1x
      have h2ne : a2 ≠ a1 := Ne.symm (ne_of_lt hlt)
      have h2mem : a2 ∈ xs := by
        rcases List.mem_cons.mp h2 with hh | hh
        · exact absurd hh h2ne
        · exact hh
      obtain ⟨i2, hlook2, hki2⟩ := assignNames_lookup_of_mem xs a2 (k + 1) h2mem
      have hbeq : (a2 == a1) = false := beq_eq_false_iff_ne.mpr h2ne
      refine ⟨k, i2, ?_, ?_, by omega⟩
      · simp [assignNames, List.lookup]
      · simpa [assignNames, List.lookup, hbeq] using hlook2
    · have h1mem : a1 ∈ xs := by
        rcases List.mem_cons.mp h1 with hh | hh
        · exact absurd hh h1x
        · exact hh
      have h2x : a2 ≠ x := by
        intro heq
        have hx1 : x < a1 := hall a1 h1mem
        rw [heq] at hlt
        exact absurd hlt (not_lt.mpr hx1.le)
      have h2mem : a2 ∈ xs := by
        rcases List.mem_cons.mp h2 with hh | hh
        · exact absurd hh h2x
        · exact hh
      obtain ⟨i1, i2, hl1, hl2, hi⟩ := ih hs2 a1 a2 h1mem h2mem hlt (k + 1)
      have hb1 : (a1 == x) = false := beq_eq_false_iff_ne.mpr h1x
      have hb2 : (a2 == x) = false := beq_eq_false_iff_ne.mpr h2x
      exact ⟨i1, i2, by simpa [assignNames, List.lookup, hb1] using hl1,
        by simpa [assignNames, List.lookup, hb2] using hl2, hi⟩

theorem label_names_lookup_of_mem (labels : List Int) (a : Int) (h : a ∈ labels) :
    ∃ str, (label_names labels).lookup a = some str := by
  have hmem : a ∈ List.insertionSort (· ≤ ·) labels :=
    (List.perm_insertionSort (· ≤ ·) labels).mem_iff.mpr h
  obtain ⟨i, hl, -⟩ := assignNames_lookup_of_mem _ a 0 hmem
  exact ⟨_, hl⟩

/-! ## Driver claim theorems -/

/-- C5 counterexample: a BR at address 0 whose target is address 0 produces
a record with `branch_target = 0`, yet the collected label set is empty,
because `if asm.label:` is falsy on the integer 0. -/
theorem zero_branch_target_not_collected :
    ∃ d, disassemble [bitsOfString "0000000111111111"] false = .ok d ∧
      (⟨some 0, "BR", none, some 0⟩ : Asm) ∈ d.lines ∧ d.labels = [] := by
  refine ⟨_, rfl, ?_, ?_⟩ <;> decide

/-- C5 (amended): every non-zero `branch_target` of a record of a completed
run is collected into the label set, and therefore has a `label_names`
entry; a target equal to 0 is skipped by the falsy `if asm.label:` check. -/
theorem nonzero_branch_targets_labelled (ws : List Bits) (af : Bool) (d : Disassembly)
    (h : disassemble ws af = .ok d) (asm : Asm) (hmem : asm ∈ d.lines) (l : Int)
    (hl : asm.label = some l) (hnz : l ≠ 0) :
    l ∈ d.labels ∧ ∃ str, d.names.lookup l = some str := by
  obtain ⟨s, hrun, hlines, hlabels, hnames⟩ := disassemble_ok_parts ws af d h
  have hmem2 : asm ∈ s.lines := by
    rw [hlines] at hmem
    rcases List.mem_append.mp hmem with h2 | h2
    · exact h2
    · have he : asm = ⟨none, ".END", none, none⟩ := by simpa using h2
      rw [he] at hl
      simp at hl
  have hinv0 : ∀ a ∈ initState.lines, ∀ l0 : Int, a.label = some l0 → l0 ≠ 0 →
      l0 ∈ initState.labels := by
    intro a ha l0 hl0
    have he : a = ⟨none, ".ORIG", some ["x3000"], none⟩ := by simpa [initState] using ha
    rw [he] at hl0
    simp at hl0
  have hmain := disLoop_label_invariant af ws initState s hrun hinv0 asm hmem2 l hl hnz
  constructor
  · rw [hlabels]
    exact hmain
  · rw [hnames]
    exact label_names_lookup_of_mem s.labels l hmain

/-- C5 witness: a BR to address 3 gets its target collected. -/
theorem nonzero_branch_targets_labelled_witness :
    ∃ d, disassemble [bitsOfString "0000000000000010"] false = .ok d ∧ (3 : Int) ∈ d.labels := by
  refine ⟨_, rfl, ?_⟩
  exact (nonzero_branch_targets_labelled [bitsOfString "0000000000000010"] false _ rfl
    ⟨some 0, "BR", none, some 3⟩ (by decide) 3 rfl (by decide)).1

/-- C10: for every record of a completed run whose `branch_target` is
consulted during rendering (non-`None` and non-zero, the Python truthiness
test at source line 150), the `label_names` lookup succeeds. -/
theorem render_label_lookup_total (ws : List Bits) (af : Bool) (d : Disassembly)
    (h : disassemble ws af = .ok d) (asm : Asm) (hmem : asm ∈ d.lines)
    (ht : labelTruthy asm.label = true) :
    ∃ str, d.names.lookup (asm.label.getD 0) = some str := by
  cases hlab : asm.label with
  | none =>
    rw [hlab] at ht
    simp [labelTruthy] at ht
  | some l =>
    have hnz : l ≠ 0 := by
      rw [hlab] at ht
      simpa [labelTruthy] using ht
    obtain ⟨s, hrun, hlines, hlabels, hnames⟩ := disassemble_ok_parts ws af d h
    have hmem2 : asm ∈ s.lines := by
      rw [hlines] at hmem
      rcases List.mem_append.mp hmem with h2 | h2
      · exact h2
      · have he : asm = ⟨none, ".END", none, none⟩ := by simpa using h2
        rw [he] at hlab
        simp at hlab
    have hinv0 : ∀ a ∈ initState.lines, ∀ l0 : Int, a.label = some l0 → l0 ≠ 0 →
        l0 ∈ initState.labels := by
      intro a ha l0 hl0
      have he : a = ⟨none, ".ORIG", some ["x3000"], none⟩ := by simpa [initState] using ha
      rw [he] at hl0
      simp at hl0
    have hmain := disLoop_label_invariant af ws initState s hrun hinv0 asm hmem2 l hlab hnz
    rw [hnames]
    exact label_names_lookup_of_mem s.labels l hmain

/-- C10 witness: the LD at address 0 targeting address 2 has a label-table
entry for the renderer to substitute. -/
theorem render_label_lookup_total_witness :
    ∃ d, disassemble [bitsOfString "0010000000000001"] false = .ok d ∧
      ∃ str, d.names.lookup 2 = some str := by
  refine ⟨_, rfl, ?_⟩
  exact render_label_lookup_total [bitsOfString "0010000000000001"] false _ rfl
    ⟨some 0, "LD", some ["R0"], some 2⟩ (by decide) (by decide)

/-- C6: with `autoFillAfterHalt` enabled, once a word decodes to the HALT
shorthand with the flag still unset (i.e. at the first HALT), every later
word is emitted as a `.FILL` record by `fill_instruction` at consecutive
addresses — unconditionally, for arbitrary later words, so the decoder is
never consulted on them. -/
theorem auto_fill_after_first_halt (ws1 : List Bits) (w : Bits) (ws2 : List Bits)
    (s1 : LoopState) (asm : Asm)
    (h1 : disRun true ws1 = .ok s1) (hflag : s1.after_halt = false)
    (hdec : decode_instruction s1.n w = .ok asm) (hhalt : asm.opcode = "HALT") :
    ∃ s2, disRun true (ws1 ++ w :: ws2) = .ok s2 ∧
      s2.lines = s1.lines ++ asm :: fillsFrom (s1.n + 1) ws2 ∧
      ∀ j (hj : j < ws2.length), ∃ hj2 : j < (fillsFrom (s1.n + 1) ws2).length,
        (fillsFrom (s1.n + 1) ws2).get ⟨j, hj2⟩ =
          fill_instruction (s1.n + 1 + j) (ws2.get ⟨j, hj⟩) := by
  have happ := disLoop_append true ws1 (w :: ws2) initState
  rw [show disLoop true initState ws1 = disRun true ws1 from rfl, h1] at happ
  have hstep : disStep true s1 w = .ok ⟨s1.lines ++ [asm],
      if labelTruthy asm.label then addLabel s1.labels (asm.label.getD 0) else s1.labels,
      s1.n + 1, true⟩ := by
    unfold disStep
    simp only [hflag, Bool.not_false, if_true, hdec]
    simp [hhalt]
  refine ⟨⟨(s1.lines ++ [asm]) ++ fillsFrom (s1.n + 1) ws2,
    if labelTruthy asm.label then addLabel s1.labels (asm.label.getD 0) else s1.labels,
    s1.n + 1 + ws2.length, true⟩, ?_, ?_, ?_⟩
  · show disLoop true initState (ws1 ++ w :: ws2) = _
    rw [happ]
    simp only [disLoop, hstep]
    exact disLoop_past_halt true ws2 _ rfl
  · simp [List.append_assoc]
  · intro j hj
    exact fillsFrom_get ws2 (s1.n + 1) j hj

/-- C6 witness: HALT at address 0, then a word that is not a valid
instruction (`1101…`) is still emitted as `.FILL`. -/
theorem auto_fill_after_first_halt_witness :
    ∃ s2, disRun true
        ([] ++ bitsOfString "1111000000100101" :: [bitsOfString "1101000000000000"]) = .ok s2 ∧
      s2.lines = initState.lines ++ (⟨some 0, "HALT", none, none⟩ : Asm) ::
        fillsFrom (initState.n + 1) [bitsOfString "1101000000000000"] ∧
      ∀ j (hj : j < [bitsOfString "1101000000000000"].length),
        ∃ hj2 : j < (fillsFrom (initState.n + 1) [bitsOfString "1101000000000000"]).length,
          (fillsFrom (initState.n + 1) [bitsOfString "1101000000000000"]).get ⟨j, hj2⟩ =
            fill_instruction (initState.n + 1 + j)
              ([bitsOfString "1101000000000000"].get ⟨j, hj⟩) :=
  auto_fill_after_first_halt [] (bitsOfString "1111000000100101")
    [bitsOfString "1101000000000000"] initState ⟨some 0, "HALT", none, none⟩
    rfl rfl (by decide) rfl

/-- C7: label names of a completed run are assigned in strictly ascending
address order — two collected targets `a1 < a2` get names `LABEL i1` and
`LABEL i2` with `i1 < i2` — and re-running on the same input is literally
the same (pure) computation. -/
theorem label_names_strictly_ascending (ws : List Bits) (af : Bool) (d : Disassembly)
    (h : disassemble ws af = .ok d) (a1 a2 : Int)
    (h1 : a1 ∈ d.labels) (h2 : a2 ∈ d.labels) (hlt : a1 < a2) :
    (∃ i1 i2 : Nat, d.names.lookup a1 = some ("LABEL" ++ toString i1) ∧
      d.names.lookup a2 = some ("LABEL" ++ toString i2) ∧ i1 < i2) ∧
    disassemble ws af = disassemble ws af := by
  refine ⟨?_, rfl⟩
  obtain ⟨s, hrun, hlines, hlabels, hnames⟩ := disassemble_ok_parts ws af d h
  have hnodup : s.labels.Nodup := disLoop_labels_nodup af ws initState s hrun List.nodup_nil
  rw [hlabels] at h1 h2
  rw [hnames]
  have hperm := List.perm_insertionSort (· ≤ ·) s.labels
  have hsorted : (List.insertionSort (· ≤ ·) s.labels).Sorted (· < ·) := by
    have hle : (List.insertionSort (· ≤ ·) s.labels).Sorted (· ≤ ·) :=
      List.sorted_insertionSort (· ≤ ·) s.labels
    have hnd : (List.insertionSort (· ≤ ·) s.labels).Nodup := hperm.nodup_iff.mpr hnodup
    exact hle.lt_of_le hnd
  exact assignNames_lookup_mono _ hsorted a1 a2 (hperm.mem_iff.mpr h1)
    (hperm.mem_iff.mpr h2) hlt 0

/-- C7 witness: targets 7 then 3 are collected out of order and still named
`LABEL0` (for 3) and `LABEL1` (for 7). -/
theorem label_names_strictly_ascending_witness :
    ∃ d, disassemble [bitsOfString "0000000000000110", bitsOfString "0000000000000001"]
        false = .ok d ∧
      ∃ i1 i2 : Nat, d.names.lookup 3 = some ("LABEL" ++ toString i1) ∧
        d.names.lookup 7 = some ("LABEL" ++ toString i2) ∧ i1 < i2 := by
  refine ⟨_, rfl, ?_⟩
  exact (label_names_strictly_ascending
    [bitsOfString "0000000000000110", bitsOfString "0000000000000001"] false _ rfl
    3 7 (by decide) (by decide) (by decide)).1
